import Mathlib

/-!
Verification development for the specops EVM-bytecode assembler.

The definitions below are a shallow embedding of the compiler core:

- the opcode stack-delta table (opcodes.gen.go),
- the minimum-PUSH encoder (types/types.go, pusher.Bytecode),
- the compiler driver, splice layout fixpoint and serializer (compile.go),
- the stack-reshape solver (stack package, Transformation).

Bytes are modelled as natural numbers below 256; Go byte arithmetic is made
explicit with mod 256 where the source relies on wraparound.  Go panics are
modelled as distinct error values, since they abort compilation without
producing bytecode.  Functions that Go writes as loops over mutable state are
written as folds or structural recursions over explicit state.
-/

namespace SpecOps

/-- Errors surfaced by Code.Compile and the layout phases.  Constructors with
a bug prefix model Go panics or BUG-tagged internal errors in compile.go. -/
inductive Err where
  | stackExpect (got want : Nat)
  | invertedNonDupSwap (op : Nat)
  | invertedDepth (op last : Nat)
  | bugBadInversion (src dst : Nat)
  | duplicateLabel (l : String)
  | jumpdestNeedsSetDepth
  | invalidOpcode (b : Nat)
  | stackUnderflow (pop depth : Nat)
  | undefinedLabel (l : String)
  | bugNonFinalNil
  | sizeOverflow (diff : Nat)
  | badPush (n : Nat)
  | bugExpandFuel
  deriving Repr, DecidableEq

/-- stackDeltas from opcodes.gen.go: maps a valid opcode byte to the number of
values it pops and pushes.  DUPn is recorded as (1,2) and SWAPn as (1,1), and
LOGn pops n+2, exactly as in the generated Go table. -/
def stackDelta (op : Nat) : Option (Nat × Nat) :=
  if 0x5F ≤ op ∧ op ≤ 0x7F then some (0, 1)
  else if 0x80 ≤ op ∧ op ≤ 0x8F then some (1, 2)
  else if 0x90 ≤ op ∧ op ≤ 0x9F then some (1, 1)
  else if 0xA0 ≤ op ∧ op ≤ 0xA4 then some (op - 0xA0 + 2, 0)
  else
    match op with
    | 0x00 => some (0, 0)
    | 0x01 => some (2, 1)
    | 0x02 => some (2, 1)
    | 0x03 => some (2, 1)
    | 0x04 => some (2, 1)
    | 0x05 => some (2, 1)
    | 0x06 => some (2, 1)
    | 0x07 => some (2, 1)
    | 0x08 => some (3, 1)
    | 0x09 => some (3, 1)
    | 0x0A => some (2, 1)
    | 0x0B => some (2, 1)
    | 0x10 => some (2, 1)
    | 0x11 => some (2, 1)
    | 0x12 => some (2, 1)
    | 0x13 => some (2, 1)
    | 0x14 => some (2, 1)
    | 0x15 => some (1, 1)
    | 0x16 => some (2, 1)
    | 0x17 => some (2, 1)
    | 0x18 => some (2, 1)
    | 0x19 => some (1, 1)
    | 0x1A => some (2, 1)
    | 0x1B => some (2, 1)
    | 0x1C => some (2, 1)
    | 0x1D => some (2, 1)
    | 0x20 => some (2, 1)
    | 0x30 => some (0, 1)
    | 0x31 => some (1, 1)
    | 0x32 => some (0, 1)
    | 0x33 => some (0, 1)
    | 0x34 => some (0, 1)
    | 0x35 => some (1, 1)
    | 0x36 => some (0, 1)
    | 0x37 => some (3, 0)
    | 0x38 => some (0, 1)
    | 0x39 => some (3, 0)
    | 0x3A => some (0, 1)
    | 0x3B => some (1, 1)
    | 0x3C => some (4, 0)
    | 0x3D => some (0, 1)
    | 0x3E => some (3, 0)
    | 0x3F => some (1, 1)
    | 0x40 => some (1, 1)
    | 0x41 => some (0, 1)
    | 0x42 => some (0, 1)
    | 0x43 => some (0, 1)
    | 0x44 => some (0, 1)
    | 0x45 => some (0, 1)
    | 0x46 => some (0, 1)
    | 0x47 => some (0, 1)
    | 0x48 => some (0, 1)
    | 0x49 => some (1, 1)
    | 0x4A => some (0, 1)
    | 0x50 => some (1, 0)
    | 0x51 => some (1, 1)
    | 0x52 => some (2, 0)
    | 0x53 => some (2, 0)
    | 0x54 => some (1, 1)
    | 0x55 => some (2, 0)
    | 0x56 => some (1, 0)
    | 0x57 => some (2, 0)
    | 0x58 => some (0, 1)
    | 0x59 => some (0, 1)
    | 0x5A => some (0, 1)
    | 0x5B => some (0, 0)
    | 0x5C => some (1, 1)
    | 0x5D => some (2, 0)
    | 0x5E => some (3, 0)
    | 0xF0 => some (3, 1)
    | 0xF1 => some (7, 1)
    | 0xF2 => some (7, 1)
    | 0xF3 => some (2, 0)
    | 0xF4 => some (6, 1)
    | 0xF5 => some (4, 1)
    | 0xFA => some (6, 1)
    | 0xFD => some (2, 0)
    | 0xFE => some (0, 0)
    | 0xFF => some (1, 0)
    | _ => none

/-- Number of leading zero bytes of a byte list; mirrors the loop in
types.pusher.Bytecode that decrements size for each leading zero. -/
def leadingZeroBytes : List Nat → Nat
  | [] => 0
  | b :: bs => if b = 0 then 1 + leadingZeroBytes bs else 0

/-- types.pusher.Bytecode (types/types.go): prepend the smallest PUSH opcode
to the payload after stripping leading zero bytes.  PUSH0 is byte 0x5F; a
payload that strips to nothing becomes a lone PUSH0.  An empty or over-long
payload is an error. -/
def pusherBytecode (buf : List Nat) : Except Err (List Nat) :=
  let n := buf.length
  if n = 0 ∨ 32 < n then .error (.badPush n)
  else
    let size := n - leadingZeroBytes buf
    if size = 0 then .ok [0x5F]
    else .ok ((0x5F + size) :: buf.drop (n - size))

/-- absDiff from compile.go. -/
def absDiff (i j : Nat) : Nat := if i ≤ j then j - i else i - j

instance exceptDecEq {ε α : Type} [DecidableEq ε] [DecidableEq α] :
    DecidableEq (Except ε α) := fun x y =>
  match x, y with
  | .ok a, .ok b =>
    if h : a = b then .isTrue (by rw [h])
    else .isFalse (fun hh => h (by injection hh))
  | .error a, .error b =>
    if h : a = b then .isTrue (by rw [h])
    else .isFalse (fun hh => h (by injection hh))
  | .ok _, .error _ => .isFalse (fun hh => by injection hh)
  | .error _, .ok _ => .isFalse (fun hh => by injection hh)

/-- Big-endian encoding of the low n bytes of v.  Mirrors
binary.BigEndian.PutUint64 followed by taking the last n bytes of the
8-byte buffer (compile.go serialization); offsets are far below 2^64, so
only the mod-256^n truncation matters. -/
def beBytes : Nat → Nat → List Nat
  | 0, _ => []
  | n + 1, v => beBytes n (v / 256) ++ [v % 256]

/-- Flattened program nodes consumed by Code.Compile.  Each constructor is one
of the special Bytecoder kinds the driver switches on: a literal opcode
(types.OpCode), Raw bytes, JUMPDEST and Label tags (tags.go), the pushTag,
pushTags and pushSize lazy pushers (tags.go), Inverted (compile.go), and the
stack.SetDepth and stack.ExpectDepth hints (stack package). -/
inductive Node where
  | op (b : Nat)
  | raw (bs : List Nat)
  | jumpdest (l : String)
  | label (l : String)
  | pushTag (l : String)
  | pushTags (ls : List String)
  | pushSize (a b : String)
  | inverted (b : Nat)
  | setDepth (n : Nat)
  | expectDepth (n : Nat)
  deriving Repr, DecidableEq

/-- The lazyLocator stored at the end of a splice (compile.go): nilOp is the
Go nil op of the final splice. -/
inductive SpliceOp where
  | nilOp
  | jumpdest (l : String)
  | label (l : String)
  | pushTag (l : String)
  | pushTags (ls : List String)
  | pushSize (a b : String)
  deriving Repr, DecidableEq

/-- A splice (compile.go): a byte buffer followed by a lazyLocator.  Go keeps
pointers from push splices to tag splices; here tags holds the indices of
those splices in the surrounding list, and offset replaces the Go *int. -/
structure Splice where
  buf : List Nat := []
  op : SpliceOp := .nilOp
  offset : Option Nat := none
  tags : List Nat := []
  reserved : Nat := 0
  deriving Repr, DecidableEq

instance : Inhabited Splice := ⟨{}⟩

/-- State threaded through the Code.Compile node loop: the splice list under
construction (the last splice is the Go curr), the tag table mapping label
names to splice indices, the tracked stack depth and the
requireStackDepthSetting flag. -/
structure CompState where
  splices : List Splice := [{}]
  allTags : List (String × Nat) := []
  depth : Nat := 0
  reqSet : Bool := false
  deriving Repr, DecidableEq

/-- Lookup in the tag table (the Go map[tag]*splice). -/
def lookupTag : List (String × Nat) → String → Option Nat
  | [], _ => none
  | (k, v) :: rest, l => if k = l then some v else lookupTag rest l

/-- Replace the last splice of the list (the Go curr pointer). -/
def setLast (sps : List Splice) (f : Splice → Splice) : List Splice :=
  match sps with
  | [] => []
  | [s] => [f s]
  | s :: rest => s :: setLast rest f

/-- Append bytes to the buffer of the current (last) splice. -/
def appendCurr (sps : List Splice) (bs : List Nat) : List Splice :=
  setLast sps (fun s => { s with buf := s.buf ++ bs })

/-- newSpliceBuffer (compile.go): stamp the current splice with the
lazyLocator, register the tag when the op is a JUMPDEST or Label (erroring on
a duplicate), and push a fresh empty splice. -/
def newSpliceBuffer (st : CompState) (op : SpliceOp) : Except Err CompState :=
  match op with
  | .jumpdest l | .label l =>
    match lookupTag st.allTags l with
    | some _ => .error (.duplicateLabel l)
    | none =>
      .ok { st with
              splices := setLast st.splices (fun s => { s with op := op }) ++ [{}],
              allTags := st.allTags ++ [(l, st.splices.length - 1)] }
  | _ =>
    .ok { st with splices := setLast st.splices (fun s => { s with op := op }) ++ [{}] }

/-- The default branch of the second switch in Code.Compile for a single
opcode byte: look up the stack delta, check for underflow, adjust the tracked
depth and append the byte.  (For a one-byte code slice the Go loop that skips
PUSH immediates makes no further iterations.) -/
def opHandle (st : CompState) (b : Nat) : Except Err CompState :=
  match stackDelta b with
  | none => .error (.invalidOpcode b)
  | some (pop, push) =>
    if st.depth < pop then .error (.stackUnderflow pop st.depth)
    else .ok { st with depth := st.depth - pop + push,
                       splices := appendCurr st.splices [b] }

/-- One iteration of the Code.Compile node loop: the first switch (SetDepth,
ExpectDepth, Inverted, lazyLocator cases), then the requireStackDepthSetting
check, then the second switch.  min(16, depth) is cast to a byte in Go, and
decrementing it for SWAP1 wraps at zero, which the model makes explicit; the
final upper-nibble assertion models the Go panic. -/
def compileStep (st : CompState) (n : Node) : Except Err CompState :=
  match n with
  | .setDepth d => .ok { st with depth := d, reqSet := false }
  | .expectDepth d =>
    if st.depth = d then .ok st else .error (.stackExpect st.depth d)
  | .inverted b =>
    let base := b / 16 * 16
    if base = 0x80 ∨ base = 0x90 then
      let off := b - base
      let last0 := min 16 st.depth
      let last := if base = 0x90 then (last0 + 255) % 256 else last0
      if last ≤ off then .error (.invertedDepth b last)
      else
        let use := (base + last - off - 1) % 256
        if use / 16 * 16 = base then
          if st.reqSet then .error .jumpdestNeedsSetDepth else opHandle st use
        else .error (.bugBadInversion b use)
    else .error (.invertedNonDupSwap b)
  | .jumpdest l => do
    let st1 ← newSpliceBuffer st (.jumpdest l)
    if st1.reqSet then .error .jumpdestNeedsSetDepth
    else .ok { st1 with reqSet := true }
  | .label l => do
    let st1 ← newSpliceBuffer st (.label l)
    if st1.reqSet then .error .jumpdestNeedsSetDepth else .ok st1
  | .pushTag l => do
    let st1 ← newSpliceBuffer st (.pushTag l)
    if st1.reqSet then .error .jumpdestNeedsSetDepth
    else .ok { st1 with depth := st1.depth + 1 }
  | .pushTags ls => do
    let st1 ← newSpliceBuffer st (.pushTags ls)
    if st1.reqSet then .error .jumpdestNeedsSetDepth
    else .ok { st1 with depth := st1.depth + 1 }
  | .pushSize a b => do
    let st1 ← newSpliceBuffer st (.pushSize a b)
    if st1.reqSet then .error .jumpdestNeedsSetDepth
    else .ok { st1 with depth := st1.depth + 1 }
  | .raw bs =>
    if st.reqSet then .error .jumpdestNeedsSetDepth
    else .ok { st with splices := appendCurr st.splices bs }
  | .op b =>
    if st.reqSet then .error .jumpdestNeedsSetDepth else opHandle st b

/-- The full node loop of Code.Compile. -/
def runNodes (st : CompState) (code : List Node) : Except Err CompState :=
  code.foldlM compileStep st

/-- Initial compile state: one empty splice, no tags, depth zero. -/
def initState : CompState := {}

/-- Current offset of the splice at index t, read through the tag pointer
(splice.tags holds splice indices in this model). -/
def tagOffset (all : List Splice) (t : Nat) : Option Nat :=
  (all.getD t default).offset

/-- splice.bytesPerTag (compile.go): 2 if any referenced tag has a known
offset at or beyond 256, else the optimistic 1. -/
def bytesPerTag (all : List Splice) (s : Splice) : Nat :=
  if s.tags.any (fun t =>
      match tagOffset all t with
      | some v => 256 ≤ v
      | none => false)
  then 2 else 1

/-- splice.bytesForSize (compile.go): 2 iff both referenced offsets are known
and their absolute difference is at least 256. -/
def bytesForSize (all : List Splice) (s : Splice) : Nat :=
  match tagOffset all (s.tags.getD 0 0), tagOffset all (s.tags.getD 1 0) with
  | some a, some b => if 256 ≤ absDiff a b then 2 else 1
  | _, _ => 1

/-- The bytesPerTag = 1 arm of splice.leadingZeroes: count leading tags whose
known offset is zero, stopping at the first unknown or non-zero offset. -/
def lzOneByte (all : List Splice) : List Nat → Nat
  | [] => 0
  | t :: ts =>
    match tagOffset all t with
    | some 0 => 1 + lzOneByte all ts
    | _ => 0

/-- The bytesPerTag = 2 arm of splice.leadingZeroes, translated switch case by
switch case.  The middle branch (offset exactly zero adding two) is dead in
the Go source as well, because a zero offset already matches the first
branch. -/
def lzTwoByte (all : List Splice) : List Nat → Nat → Nat
  | [], n => n
  | t :: ts, n =>
    match tagOffset all t with
    | none => n + 1
    | some v =>
      if v < 256 then n + 1
      else if v = 0 then lzTwoByte all ts (n + 2)
      else n

/-- splice.leadingZeroes (compile.go): the number of bytes the serializer
expects PUSHBytes to strip from the concatenated offsets. -/
def leadingZeroes (all : List Splice) (s : Splice) : Nat :=
  if s.tags.length = 0 then 0
  else
    match s.op with
    | .pushSize _ _ =>
      let n := bytesForSize all s
      match tagOffset all (s.tags.getD 0 0), tagOffset all (s.tags.getD 1 0) with
      | some a, some b =>
        if a = b then n
        else if n = 1 then 0
        else if absDiff a b < 256 then 1 else 0
      | _, _ => n
    | _ =>
      if bytesPerTag all s = 1 then lzOneByte all s.tags
      else lzTwoByte all s.tags 0

/-- splice.extraBytesNeeded (compile.go): bytes needed for the lazyLocator
beyond the buffer, including the PUSH opcode byte for push splices and the
JUMPDEST byte for JUMPDEST splices. -/
def extraBytesNeeded (all : List Splice) (s : Splice) : Nat :=
  match s.op with
  | .nilOp => 0
  | .label _ => 0
  | .pushSize _ _ => 1 + bytesForSize all s - leadingZeroes all s
  | _ => 1 + s.tags.length * bytesPerTag all s - leadingZeroes all s

/-- The names a push splice resolves through setTags, in order. -/
def spliceTagNames (op : SpliceOp) : List String :=
  match op with
  | .pushTag l => [l]
  | .pushTags ls => ls
  | .pushSize a b => [a, b]
  | _ => []

/-- splice.setTags (compile.go): resolve each referenced name to its tag
splice via the allTags table, failing on an undefined label. -/
def resolveTags (tags : List (String × Nat)) : List String → Except Err (List Nat)
  | [] => .ok []
  | l :: ls => do
    match lookupTag tags l with
    | none => .error (.undefinedLabel l)
    | some i =>
      let rest ← resolveTags tags ls
      .ok (i :: rest)

/-- The body of the spliceConcat.reserve loop for the splice at index i,
carrying the program counter: advance pc over the buffer, record the offset
of tag splices, resolve the tag pointers of push splices, then reserve
extraBytesNeeded bytes. -/
def reserveStep (tags : List (String × Nat)) (total : Nat)
    (acc : Nat × List Splice) (i : Nat) : Except Err (Nat × List Splice) := do
  let (pc0, all) := acc
  let sp := all.getD i default
  let pc := pc0 + sp.buf.length
  let sp1 ←
    match sp.op with
    | .jumpdest _ | .label _ => .ok { sp with offset := some pc }
    | .pushTag _ | .pushTags _ | .pushSize _ _ => do
      let ts ← resolveTags tags (spliceTagNames sp.op)
      .ok { sp with tags := ts }
    | .nilOp =>
      if i + 1 = total then .ok sp else .error .bugNonFinalNil
  let all1 := all.set i sp1
  let r := extraBytesNeeded all1 sp1
  .ok (pc + r, all1.set i { sp1 with reserved := r })

/-- spliceConcat.reserve (compile.go): one pass over the splices recording
best-case offsets and optimistic reservations. -/
def reserve (tags : List (String × Nat)) (sps : List Splice) :
    Except Err (List Splice) := do
  let out ← (List.range sps.length).foldlM (reserveStep tags sps.length) (0, sps)
  .ok out.2

/-- The body of one spliceConcat.expand pass for the splice at index i:
tagged splices are shifted by the running expansion counter; push splices
whose recomputed need exceeds their reservation grow it and add the delta to
the counter. -/
def expandStep (acc : List Splice × Nat) (i : Nat) : List Splice × Nat :=
  let (all, ex) := acc
  let sp := all.getD i default
  match sp.op with
  | .jumpdest _ | .label _ =>
    (all.set i { sp with offset := some (sp.offset.getD 0 + ex) }, ex)
  | .nilOp => (all, ex)
  | _ =>
    let need := extraBytesNeeded all sp
    if sp.reserved < need then
      (all.set i { sp with reserved := need }, ex + (need - sp.reserved))
    else (all, ex)

/-- One full pass of spliceConcat.expand, returning the updated splices and
the total expansion of the pass. -/
def expandPass (sps : List Splice) : List Splice × Nat :=
  (List.range sps.length).foldl expandStep (sps, 0)

/-- The spliceConcat.expand loop: repeat passes until one produces zero
growth.  The Go loop has no fuel; the fuel here is only a termination
certificate and expandFuel below is proven sufficient. -/
def expandLoop : Nat → List Splice → Option (List Splice)
  | 0, _ => none
  | fuel + 1, sps =>
    let (sps1, ex) := expandPass sps
    if ex = 0 then some sps1 else expandLoop fuel sps1

/-- Upper bound on the reservation a splice can ever reach: push splices
reserve at most one PUSH byte plus two bytes per referenced tag. -/
def reservedBound (s : Splice) : Nat :=
  match s.op with
  | .nilOp => 0
  | .label _ => 0
  | .pushSize _ _ => 3
  | _ => 1 + 2 * s.tags.length

/-- Fuel sufficient for expandLoop: total reservations grow by at least one
per non-final pass and are bounded by the sum of per-splice bounds. -/
def expandFuel (sps : List Splice) : Nat :=
  (sps.map reservedBound).sum + 1

/-- Total number of reserved bytes across all splices. -/
def sumReserved (sps : List Splice) : Nat :=
  (sps.map (fun s => s.reserved)).sum

/-- Invariant carried through the reserve pass: a splice is either still in
the shape the driver produced it in (no reservation, unresolved tags) or its
reservation sits within the per-splice bound and its tags are resolved, one
per referenced name. -/
def spliceInv (sp : Splice) : Prop :=
  (sp.reserved = 0 ∧ sp.tags = []) ∨
  (sp.reserved ≤ reservedBound sp ∧
    sp.tags.length = (spliceTagNames sp.op).length)

/-- spliceConcat.expand as used by Compile. -/
def expand (sps : List Splice) : Except Err (List Splice) :=
  match expandLoop (expandFuel sps) sps with
  | some out => .ok out
  | none => .error .bugExpandFuel

/-- Serialization of one splice op in spliceConcat.bytes: the JUMPDEST byte,
nothing for Label and the final splice, the checked two-byte size push, and
for pushTag and pushTags the PUSHBytes of the concatenated big-endian
offsets.  The Go buffer has length extraBytesNeeded + leadingZeroes - 1,
which always equals tags.length * bytesPerTag, so the concatenation is built
directly. -/
def serializeOp (all : List Splice) (s : Splice) : Except Err (List Nat) :=
  match s.op with
  | .nilOp => .ok []
  | .label _ => .ok []
  | .jumpdest _ => .ok [0x5B]
  | .pushSize _ _ =>
    let o0 := (tagOffset all (s.tags.getD 0 0)).getD 0
    let o1 := (tagOffset all (s.tags.getD 1 0)).getD 0
    let diff := absDiff o0 o1
    if 0xFFFF < diff then .error (.sizeOverflow diff)
    else pusherBytecode [diff / 256, diff % 256]
  | _ =>
    let n := bytesPerTag all s
    let full := (s.tags.map (fun t => beBytes n ((tagOffset all t).getD 0))).flatten
    pusherBytecode full

/-- spliceConcat.bytes (compile.go): concatenate each buffer followed by its
serialized lazyLocator. -/
def serializeSplices (all : List Splice) : Except Err (List Nat) :=
  all.foldlM (fun acc sp => do
    let b ← serializeOp all sp
    .ok (acc ++ sp.buf ++ b)) []

/-- Driver plus reserve plus expand: the compile pipeline up to the final
resolved splice layout, also returning the tag table. -/
def compileSplices (code : List Node) :
    Except Err (List Splice × List (String × Nat)) := do
  let st ← runNodes initState code
  let rs ← reserve st.allTags st.splices
  let es ← expand rs
  .ok (es, st.allTags)

/-- Code.Compile (compile.go): run the node loop, reserve, expand, then
serialize the splices. -/
def Compile (code : List Node) : Except Err (List Nat) := do
  let (sps, _) ← compileSplices code
  serializeSplices sps

/-- Resolved offset of a label in a successfully compiled program. -/
def labelOffset (code : List Node) (l : String) : Option Nat :=
  match compileSplices code with
  | .ok (sps, tags) =>
    match lookupTag tags l with
    | some i => (sps.getD i default).offset
    | none => none
  | .error _ => none

/-- Final tracked stack depth after the node loop of a program whose driver
pass succeeds. -/
def trackedDepth (code : List Node) : Option Nat :=
  match runNodes initState code with
  | .ok st => some st.depth
  | .error _ => none

end SpecOps

namespace Stack

/-!
Model of the stack package Transformation solver.  A Go node is a string of
hex characters, each encoding one stack index below 16; nodeFromIndices and
node.toIndices translate between that string and the index slice and are
mutually inverse on indices below 16, so the model works with the index list
directly.  Go panics (out-of-range slice indexing in node.apply, and the
POP of an empty node) are modelled as the applyOutOfRange error.
-/

/-- Errors of Transformation.Bytecode and its helpers. -/
inductive TErr where
  | invalidTyp
  | permuteTooMany (n : Nat)
  | duplicateIdx
  | missingIdx
  | depthTooLarge (d : Nat)
  | idxBeyondDepth (i d : Nat)
  | invalidSize (n : Nat)
  | unsupportedXform (o : Nat)
  | applyOutOfRange (o : Nat)
  | withOpsMismatch
  | bugQueueNotInGraph
  | notReached
  | fuelOut
  deriving Repr, DecidableEq

/-- Swap the entries at positions 0 and i of a list (the SWAP arm of
node.apply). -/
def swapTop (n : List Nat) (i : Nat) : List Nat :=
  (n.set 0 (n.getD i 0)).set i (n.getD 0 0)

/-- node.apply (stack package): POP drops the head, SWAPk exchanges positions
0 and k, DUPk prepends a copy of position k-1, anything else is an error.
The positions the Go code indexes without checking are guarded here and
return applyOutOfRange where Go would panic. -/
def applyOp (n : List Nat) (o : Nat) : Except TErr (List Nat) :=
  if o = 0x50 then
    match n with
    | [] => .error (.applyOutOfRange o)
    | _ :: t => .ok t
  else if o / 16 * 16 = 0x90 then
    let i := o - 0x90 + 1
    if i < n.length then .ok (swapTop n i) else .error (.applyOutOfRange o)
  else if o / 16 * 16 = 0x80 then
    let k := o - 0x80
    if k < n.length then .ok (n.getD k 0 :: n) else .error (.applyOutOfRange o)
  else .error (.unsupportedXform o)

/-- Apply a sequence of opcodes left to right (the loops over override ops
and BFS paths). -/
def applyOps (n : List Nat) : List Nat → Except TErr (List Nat)
  | [] => .ok n
  | o :: os => do
    let n1 ← applyOp n o
    applyOps n1 os

/-- rootNode: the in-order node 0, 1, ..., size-1. -/
def rootNode (size : Nat) : List Nat := List.range size

/-- The DUP and POP edge generation of Transformation.bfs: iterate over the
concatenation of the target and current indices; a symbol more frequent in
the target is reached by a DUP at its first-found current position, and a
POP is queued when the head symbol is over-represented.  The zeroed list
plays the role of the delta map entries the Go loop resets to zero. -/
def dupPopEdges (want curr : List Nat) : List Nat → List Nat → List Nat → List Nat
  | [], _, acc => acc
  | idx :: rest, zeroed, acc =>
    let d : Int :=
      if idx ∈ zeroed then 0
      else (want.count idx : Int) - (curr.count idx : Int)
    if d = 0 then dupPopEdges want curr rest zeroed acc
    else if 0 < d then
      match curr.findIdx? (fun c => c = idx) with
      | some i => dupPopEdges want curr rest (idx :: zeroed) (acc ++ [0x80 + i])
      | none => dupPopEdges want curr rest zeroed acc
    else
      match curr with
      | c0 :: _ =>
        if c0 = idx then dupPopEdges want curr rest (idx :: zeroed) (acc ++ [0x50])
        else dupPopEdges want curr rest zeroed acc
      | [] => dupPopEdges want curr rest zeroed acc

/-- All candidate edges out of curr: the delta-guided DUP and POP edges
followed by SWAP1 through SWAP(len-1). -/
def edgesOf (want curr : List Nat) : List Nat :=
  dupPopEdges want curr (want ++ curr) [] []
    ++ (List.range (curr.length - 1)).map (fun i => 0x90 + i)

/-- Lookup of a node in the transformationPaths map. -/
def lookupPath : List (List Nat × List Nat) → List Nat → Option (List Nat)
  | [], _ => none
  | (k, v) :: rest, n => if k = n then some v else lookupPath rest n

/-- The inner edge loop of Transformation.bfs: apply each edge, skip nodes
already in the graph, return the extended path as soon as the target is
reached, and otherwise enqueue the new node. -/
def processEdges (want currPath : List Nat) (curr : List Nat) :
    List Nat → List (List Nat × List Nat) → List (List Nat) →
    Except TErr (Sum (List (List Nat × List Nat) × List (List Nat)) (List Nat))
  | [], g, q => .ok (.inl (g, q))
  | o :: os, g, q => do
    let next ← applyOp curr o
    match lookupPath g next with
    | some _ => processEdges want currPath curr os g q
    | none =>
      let nextPath := currPath ++ [o]
      if next = want then .ok (.inr nextPath)
      else processEdges want currPath curr os (g ++ [(next, nextPath)]) (q ++ [next])

/-- The BFS queue loop with an explicit fuel (the Go loop runs until the
queue empties; bfsFuel below is far beyond the finite state space). -/
def bfsLoop (want : List Nat) :
    Nat → List (List Nat × List Nat) → List (List Nat) → Except TErr (List Nat)
  | 0, _, _ => .error .fuelOut
  | _ + 1, _, [] => .error .notReached
  | fuel + 1, g, curr :: qs => do
    match lookupPath g curr with
    | none => .error .bugQueueNotInGraph
    | some currPath =>
      match ← processEdges want currPath curr (edgesOf want curr) g qs with
      | .inr path => .ok path
      | .inl (g1, q1) => bfsLoop want fuel g1 q1

/-- Fuel for the BFS: vastly larger than the number of distinct reachable
stack nodes. -/
def bfsFuel : Nat := 2 ^ 40

/-- Transformation.bfs: validate the size, return the empty path when the
target is the root, and otherwise search breadth-first. -/
def bfs (indices : List Nat) (size : Nat) : Except TErr (List Nat) :=
  if size = 0 ∨ 16 < size then .error (.invalidSize size)
  else
    let root := rootNode size
    if indices = root then .ok []
    else bfsLoop indices bfsFuel [(root, [])] [root]

/-- The Transformation type tag (xFormType). -/
inductive XformType where
  | permutation
  | general
  | unknownXform
  deriving Repr, DecidableEq

/-- stack.Transformation: the request plus the optional WithOps override. -/
structure Transformation where
  typ : XformType := .unknownXform
  depth : Nat := 0
  indices : List Nat := []
  override : List Nat := []
  deriving Repr, DecidableEq

/-- Transformation.permutationSize: at most 16 indices, no duplicates, and
contiguous coverage of 0..n-1; the Go method also sets t.depth to the index
count, which the caller model threads via effSize. -/
def permutationSize (t : Transformation) : Except TErr Nat :=
  if 16 < t.indices.length then .error (.permuteTooMany t.indices.length)
  else if t.indices.Nodup then
    if (List.range t.indices.length).all (fun i => t.indices.contains i) then
      .ok t.indices.length
    else .error .missingIdx
  else .error .duplicateIdx

/-- Transformation.generalSize: depth at most 16 and all indices below the
depth. -/
def generalSize (t : Transformation) : Except TErr Nat :=
  if 16 < t.depth then .error (.depthTooLarge t.depth)
  else
    match t.indices.find? (fun i => t.depth ≤ i) with
    | some i => .error (.idxBeyondDepth i t.depth)
    | none => .ok t.depth

/-- The stack depth a successful Bytecode call searches from: the index count
for a permutation (Go overwrites t.depth with it) and the declared depth for
a general transformation. -/
def effSize (t : Transformation) : Nat :=
  match t.typ with
  | .permutation => t.indices.length
  | _ => t.depth

/-- Transformation.overriden: apply the override ops to the root and demand
the outcome equals the requested node, then return the ops verbatim. -/
def overriden (size : Nat) (indices ops : List Nat) : Except TErr (List Nat) := do
  let fin ← applyOps (rootNode size) ops
  if fin = indices then .ok ops else .error .withOpsMismatch

/-- Transformation.Bytecode: validate via the type-specific sizer, then either
verify the override or run the BFS. -/
def TBytecode (t : Transformation) : Except TErr (List Nat) := do
  let size ←
    match t.typ with
    | .permutation => permutationSize t
    | .general => generalSize t
    | .unknownXform => .error .invalidTyp
  if t.override.length ≠ 0 then overriden size t.indices t.override
  else bfs t.indices size

end Stack

namespace SpecOps

/-- The claim C1 failing input: a Label at offset zero, a two-label push that
widens to two bytes per tag, enough raw padding to put the JUMPDEST past byte
255, and a trailing instruction occupying the byte after the JUMPDEST. -/
def progC1 : List Node :=
  [.label "A", .pushTags ["A", "B"], .raw (List.replicate 300 0),
   .jumpdest "B", .setDepth 0, .op 0x00]

set_option maxRecDepth 4000 in
/-- C1: the round-trip offset invariant fails on progC1.  The recorded offset
of JUMPDEST B is 304, yet the compiled output has the JUMPDEST byte 0x5B at
index 303 and the STOP byte 0x00 at index 304: the serializer strips two
leading zero bytes from the two-byte-per-tag push whose first tag sits at
offset zero, while leadingZeroes accounted for only one, so every later
offset is recorded one byte too far. -/
theorem c1_jumpdest_offset_mismatch :
    labelOffset progC1 "B" = some 304 ∧
    (Compile progC1).toOption.map (fun o => (o.length, o.getD 303 0, o.getD 304 0))
      = some (305, 0x5B, 0x00) := by
  decide

/-- Driver pass of the claim C2 failing input, for any raw payload. -/
lemma runNodes_pushTag_raw (bs : List Nat) :
    runNodes initState [.pushTag "L", .raw bs, .jumpdest "L"] =
      .ok { splices :=
              [{ buf := [], op := .pushTag "L" },
               { buf := bs, op := .jumpdest "L" },
               {}],
            allTags := [("L", 1)], depth := 1, reqSet := true } := by
  simp [runNodes, List.foldlM, compileStep, newSpliceBuffer, lookupTag,
        setLast, appendCurr, initState, bind, Except.bind, pure, Except.pure]

/-- Reserve pass of the claim C2 failing input: the forward-referenced push
optimistically reserves two bytes and the JUMPDEST lands after the payload. -/
lemma reserve_pushTag_raw (bs : List Nat) :
    reserve [("L", 1)]
      [{ buf := [], op := .pushTag "L" },
       { buf := bs, op := .jumpdest "L" },
       {}] =
      .ok [{ buf := [], op := .pushTag "L", tags := [1], reserved := 2 },
           { buf := bs, op := .jumpdest "L", offset := some (bs.length + 2),
             reserved := 1 },
           {}] := by
  simp [reserve, reserveStep, List.foldlM, List.range_succ, resolveTags,
        spliceTagNames, lookupTag, extraBytesNeeded, bytesPerTag, bytesForSize,
        leadingZeroes, lzOneByte, lzTwoByte, tagOffset, bind, Except.bind,
        pure, Except.pure, List.set, List.getD, List.get?, Nat.add_comm]

/-- First expand pass on the reserved C2 splices: the push widens from two to
three reserved bytes and shifts the JUMPDEST offset by one. -/
lemma expandPass_pushTag_raw1 (bs : List Nat) (h : 254 ≤ bs.length) :
    expandPass
      [{ buf := [], op := .pushTag "L", tags := [1], reserved := 2 },
       { buf := bs, op := .jumpdest "L", offset := some (bs.length + 2),
         reserved := 1 },
       {}] =
      ([{ buf := [], op := .pushTag "L", tags := [1], reserved := 3 },
        { buf := bs, op := .jumpdest "L", offset := some (bs.length + 3),
          reserved := 1 },
        {}], 1) := by
  have h1 : 256 ≤ bs.length + 2 := by omega
  have h2 : ¬ (bs.length + 2 < 256) := by omega
  have h3 : ¬ (bs.length + 2 = 0) := by omega
  simp [expandPass, expandStep, List.range_succ, extraBytesNeeded, bytesPerTag,
        bytesForSize, leadingZeroes, lzOneByte, lzTwoByte, tagOffset, List.set,
        List.getD, List.get?, h1, h2, h3]

/-- Second expand pass on the C2 splices: zero growth, fixpoint reached. -/
lemma expandPass_pushTag_raw2 (bs : List Nat) (h : 254 ≤ bs.length) :
    expandPass
      [{ buf := [], op := .pushTag "L", tags := [1], reserved := 3 },
       { buf := bs, op := .jumpdest "L", offset := some (bs.length + 3),
         reserved := 1 },
       {}] =
      ([{ buf := [], op := .pushTag "L", tags := [1], reserved := 3 },
        { buf := bs, op := .jumpdest "L", offset := some (bs.length + 3),
          reserved := 1 },
        {}], 0) := by
  have h1 : 256 ≤ bs.length + 3 := by omega
  have h2 : ¬ (bs.length + 3 < 256) := by omega
  have h3 : ¬ (bs.length + 3 = 0) := by omega
  simp [expandPass, expandStep, List.range_succ, extraBytesNeeded, bytesPerTag,
        bytesForSize, leadingZeroes, lzOneByte, lzTwoByte, tagOffset, List.set,
        List.getD, List.get?, h1, h2, h3]

/-- Expand phase of the C2 failing input. -/
lemma expand_pushTag_raw (bs : List Nat) (h : 254 ≤ bs.length) :
    expand
      [{ buf := [], op := .pushTag "L", tags := [1], reserved := 2 },
       { buf := bs, op := .jumpdest "L", offset := some (bs.length + 2),
         reserved := 1 },
       {}] =
      .ok [{ buf := [], op := .pushTag "L", tags := [1], reserved := 3 },
           { buf := bs, op := .jumpdest "L", offset := some (bs.length + 3),
             reserved := 1 },
           {}] := by
  have hfuel : expandFuel
      [{ buf := [], op := .pushTag "L", tags := [1], reserved := 2 },
       { buf := bs, op := .jumpdest "L", offset := some (bs.length + 2),
         reserved := 1 },
       ({} : Splice)] = 5 := by
    simp [expandFuel, reservedBound]
  simp [expand, hfuel, expandLoop, expandPass_pushTag_raw1 bs h,
        expandPass_pushTag_raw2 bs h]

/-- Full layout of the C2 failing input for any sufficiently long payload. -/
lemma compileSplices_pushTag_raw (bs : List Nat) (h : 254 ≤ bs.length) :
    compileSplices [.pushTag "L", .raw bs, .jumpdest "L"] =
      .ok ([{ buf := [], op := .pushTag "L", tags := [1], reserved := 3 },
            { buf := bs, op := .jumpdest "L", offset := some (bs.length + 3),
              reserved := 1 },
            {}], [("L", 1)]) := by
  simp [compileSplices, runNodes_pushTag_raw bs, reserve_pushTag_raw bs,
        expand_pushTag_raw bs h, bind, Except.bind]

/-- Resolved label offset of the C2 failing input at payload length 65536. -/
lemma labelOffset_pushTag_raw (bs : List Nat) (h : bs.length = 65536) :
    labelOffset [.pushTag "L", .raw bs, .jumpdest "L"] "L" = some 65539 := by
  have h254 : 254 ≤ bs.length := by omega
  have hc := compileSplices_pushTag_raw bs h254
  rw [h] at hc
  simp only [labelOffset, hc, lookupTag, List.getD, List.get?]
  norm_num

/-- Serialization of the C2 push splice: the two reserved immediate bytes hold
only the low sixteen bits of offset 65539, and the zero high byte is then
stripped, emitting PUSH1 3. -/
lemma serializeOp_trunc (bs : List Nat) :
    serializeOp
        [{ buf := [], op := .pushTag "L", tags := [1], reserved := 3 },
         { buf := bs, op := .jumpdest "L", offset := some 65539, reserved := 1 },
         {}]
        { buf := [], op := .pushTag "L", tags := [1], reserved := 3 }
      = .ok [0x60, 3] := by
  simp only [serializeOp]
  simp only [bytesPerTag, tagOffset, List.getD, List.get?]
  norm_num
  simp only [beBytes, List.map, List.flatten]
  norm_num
  simp only [pusherBytecode, leadingZeroBytes]
  norm_num

/-- C2: width exactness fails for offsets at or beyond 65536.  The program
pushes the offset of a JUMPDEST that resolves to 65539, the reserved width
stays at the 2-byte cap of bytesPerTag, and the serializer emits PUSH1 3:
the immediate encodes 3, not 65539, so the claimed lossless encoding does
not hold for offsets at or above 65536. -/
theorem c2_width_cap_truncates :
    labelOffset [.pushTag "L", .raw (List.replicate 65536 0), .jumpdest "L"] "L"
        = some 65539 ∧
    compileSplices [.pushTag "L", .raw (List.replicate 65536 0), .jumpdest "L"]
      = .ok ([{ buf := [], op := .pushTag "L", tags := [1], reserved := 3 },
              { buf := List.replicate 65536 0, op := .jumpdest "L",
                offset := some 65539, reserved := 1 },
              {}], [("L", 1)]) ∧
    serializeOp
        [{ buf := [], op := .pushTag "L", tags := [1], reserved := 3 },
         { buf := List.replicate 65536 0, op := .jumpdest "L",
           offset := some 65539, reserved := 1 },
         {}]
        { buf := [], op := .pushTag "L", tags := [1], reserved := 3 }
      = .ok [0x60, 3] := by
  have hlen : (List.replicate 65536 (0 : Nat)).length = 65536 :=
    List.length_replicate 65536 0
  refine ⟨labelOffset_pushTag_raw _ hlen, ?_, serializeOp_trunc _⟩
  have hc := compileSplices_pushTag_raw (List.replicate 65536 0) (by omega)
  rw [hlen] at hc
  exact hc

/-- C5: Inverted SWAP1 compiled at tracked depth 0 does not return the
inversion error the claim describes; the byte-typed cap wraps from 0 to 255,
the guard offset < cap passes, the substituted opcode 0x8E has the DUP upper
nibble, and the compiler hits its bad-inversion panic, modelled here as the
bugBadInversion error. -/
theorem c5_inverted_swap_at_depth0_panics :
    Compile [.inverted 0x90] = .error (.bugBadInversion 0x90 0x8E) := by
  decide

/-- C6 counterexample: the tracked depth exceeds 1024 with no compile error.
SetDepth 1024 followed by the depth-1-pushing CALLER leaves the tracked depth
at 1025 and compilation succeeds. -/
theorem c6_depth_above_1024_accepted :
    trackedDepth [.setDepth 1024, .op 0x33] = some 1025 ∧
    Compile [.setDepth 1024, .op 0x33] = .ok [0x33] := by
  decide

/-- C7 counterexample: a JumpDest as the last node compiles successfully;
the follow-up SetDepth requirement is only checked when a later node is
processed. -/
theorem c7_trailing_jumpdest_compiles :
    Compile [.jumpdest "a"] = .ok [0x5B] ∧
    Compile [.jumpdest "a", .expectDepth 0, .setDepth 3] = .ok [0x5B] := by
  decide

/-- C8: compiling an empty PushLabels node fails instead of emitting nothing.
The splice reserves one byte for the PUSH opcode, and serialization calls
PUSHBytes with a zero-length payload, which types.pusher.Bytecode rejects.
The program is the TestPUSHNoLabels test body (MSIZE, empty push, GAS), which
expects success with output MSIZE GAS. -/
theorem c8_empty_pushtags_errors :
    Compile [.op 0x59, .pushTags [], .op 0x5A] = .error (.badPush 0) := by
  decide

/-- C10: every pushTag, pushTags and pushSize node increments the tracked
depth by exactly one, whatever the number of referenced labels.  The
hypothesis excludes the pending-SetDepth error path. -/
theorem c10_push_nodes_increment_depth_by_one (st : CompState)
    (l a b : String) (ls : List String) (h : st.reqSet = false) :
    (compileStep st (.pushTag l)).map CompState.depth = .ok (st.depth + 1) ∧
    (compileStep st (.pushTags ls)).map CompState.depth = .ok (st.depth + 1) ∧
    (compileStep st (.pushSize a b)).map CompState.depth = .ok (st.depth + 1) := by
  refine ⟨?_, ?_, ?_⟩ <;>
    simp [compileStep, newSpliceBuffer, h, bind, Except.bind, Except.map]

/-- foldlM over an appended node list splits into sequential runs. -/
lemma runNodes_append (st : CompState) (c1 c2 : List Node) :
    runNodes st (c1 ++ c2) =
      (runNodes st c1).bind (fun st1 => runNodes st1 c2) := by
  induction c1 generalizing st with
  | nil =>
    simp [runNodes, List.foldlM, Except.bind, pure, Except.pure]
  | cons n rest ih =>
    simp only [runNodes, List.cons_append, List.foldlM]
    cases compileStep st n with
    | error e => simp [Except.bind, bind]
    | ok st1 =>
      have := ih st1
      simp only [runNodes] at this
      simp [Except.bind, bind, this]

/-- An error from the driver pass propagates to the Compile result. -/
lemma compile_error_of_runNodes (code : List Node) (e : Err)
    (h : runNodes initState code = .error e) :
    Compile code = .error e := by
  simp [Compile, compileSplices, h, bind, Except.bind]

/-- C6 amended, underflow half: appending an opcode whose pop count exceeds
the tracked depth reached by the preceding nodes makes Compile fail with the
stack-underflow error. -/
theorem c6_underflow_is_error (code : List Node) (st : CompState) (b p q : Nat)
    (h1 : runNodes initState code = .ok st) (h2 : st.reqSet = false)
    (h3 : stackDelta b = some (p, q)) (h4 : st.depth < p) :
    Compile (code ++ [.op b]) = .error (.stackUnderflow p st.depth) := by
  have hstep : compileStep st (.op b) = .error (.stackUnderflow p st.depth) := by
    simp [compileStep, h2, opHandle, h3, h4]
  have hrun : runNodes initState (code ++ [.op b])
      = .error (.stackUnderflow p st.depth) := by
    rw [runNodes_append, h1]
    simp [runNodes, List.foldlM, Except.bind, hstep]
  exact compile_error_of_runNodes _ _ hrun

/-- Witness for C6 amended: POP as the first node underflows the empty
tracked stack and Compile reports popping 1 at depth 0. -/
theorem c6_underflow_is_error_witness :
    (runNodes initState [] = .ok initState ∧ initState.reqSet = false ∧
      stackDelta 0x50 = some (1, 0) ∧ initState.depth < 1) ∧
    Compile ([] ++ [.op 0x50]) = .error (.stackUnderflow 1 initState.depth) :=
  ⟨⟨rfl, rfl, by decide, by decide⟩,
    c6_underflow_is_error [] initState 0x50 1 0 rfl rfl (by decide) (by decide)⟩

/-- A successful step on a JUMPDEST node always sets the
requireStackDepthSetting flag. -/
lemma compileStep_jumpdest_reqSet (st st1 : CompState) (l : String)
    (h : compileStep st (.jumpdest l) = .ok st1) : st1.reqSet = true := by
  simp only [compileStep, newSpliceBuffer, bind, Except.bind] at h
  cases hl : lookupTag st.allTags l with
  | some v => rw [hl] at h; simp at h
  | none =>
    rw [hl] at h
    by_cases hr : st.reqSet <;> simp [hr] at h
    rw [← h]

/-- With the requireStackDepthSetting flag pending, any node other than
SetDepth and ExpectDepth makes the driver step fail: either one of the checks
of the node itself fires first, or the must-be-followed-by-SetDepth check
does. -/
lemma compileStep_reqSet_blocks (st : CompState) (n : Node)
    (hreq : st.reqSet = true)
    (hsd : ∀ d, n ≠ Node.setDepth d) (hed : ∀ d, n ≠ Node.expectDepth d) :
    ∃ e, compileStep st n = .error e := by
  cases n with
  | setDepth d => exact absurd rfl (hsd d)
  | expectDepth d => exact absurd rfl (hed d)
  | op b =>
    exact ⟨.jumpdestNeedsSetDepth, by simp [compileStep, hreq]⟩
  | raw bs =>
    exact ⟨.jumpdestNeedsSetDepth, by simp [compileStep, hreq]⟩
  | inverted b =>
    simp only [compileStep]
    by_cases hb : b / 16 * 16 = 0x80 ∨ b / 16 * 16 = 0x90
    · simp only [hb, if_true]
      by_cases hoff :
          (if b / 16 * 16 = 0x90 then (min 16 st.depth + 255) % 256
           else min 16 st.depth) ≤ b - b / 16 * 16
      · refine ⟨.invertedDepth b
            (if b / 16 * 16 = 0x90 then (min 16 st.depth + 255) % 256
             else min 16 st.depth), ?_⟩
        simp only [hoff, if_true]
      · simp only [hoff, if_false]
        by_cases hnib :
            (b / 16 * 16 +
              (if b / 16 * 16 = 0x90 then (min 16 st.depth + 255) % 256
               else min 16 st.depth) - (b - b / 16 * 16) - 1) % 256 / 16 * 16
              = b / 16 * 16
        · exact ⟨.jumpdestNeedsSetDepth, by simp [hnib, hreq]⟩
        · refine ⟨.bugBadInversion b
              ((b / 16 * 16 +
                (if b / 16 * 16 = 0x90 then (min 16 st.depth + 255) % 256
                 else min 16 st.depth) - (b - b / 16 * 16) - 1) % 256), ?_⟩
          simp only [hnib, if_false]
    · exact ⟨.invertedNonDupSwap b, by simp [hb]⟩
  | jumpdest l =>
    simp only [compileStep, newSpliceBuffer, bind, Except.bind]
    cases hl : lookupTag st.allTags l with
    | some v => exact ⟨.duplicateLabel l, by simp⟩
    | none => exact ⟨.jumpdestNeedsSetDepth, by simp [hreq]⟩
  | label l =>
    simp only [compileStep, newSpliceBuffer, bind, Except.bind]
    cases hl : lookupTag st.allTags l with
    | some v => exact ⟨.duplicateLabel l, by simp⟩
    | none => exact ⟨.jumpdestNeedsSetDepth, by simp [hreq]⟩
  | pushTag l =>
    exact ⟨.jumpdestNeedsSetDepth,
      by simp [compileStep, newSpliceBuffer, bind, Except.bind, hreq]⟩
  | pushTags ls =>
    exact ⟨.jumpdestNeedsSetDepth,
      by simp [compileStep, newSpliceBuffer, bind, Except.bind, hreq]⟩
  | pushSize a b =>
    exact ⟨.jumpdestNeedsSetDepth,
      by simp [compileStep, newSpliceBuffer, bind, Except.bind, hreq]⟩

/-- Driver-level form of C7 amended: a JUMPDEST immediately followed by a
node that is neither SetDepth nor ExpectDepth makes the node loop fail, from
any starting state. -/
lemma runNodes_jumpdest_violation (code : List Node) :
    ∀ (st : CompState) (i : Nat) (l : String) (n : Node),
      code.get? i = some (.jumpdest l) → code.get? (i + 1) = some n →
      (∀ d, n ≠ Node.setDepth d) → (∀ d, n ≠ Node.expectDepth d) →
      ∃ e, runNodes st code = .error e := by
  induction code with
  | nil => intro st i l n hi _ _ _; simp at hi
  | cons c rest ih =>
    intro st i l n hi hn hsd hed
    cases i with
    | zero =>
      simp only [List.get?] at hi hn
      cases hi
      simp only [runNodes, List.foldlM]
      cases hstep : compileStep st (.jumpdest l) with
      | error e => exact ⟨e, by simp [bind, Except.bind]⟩
      | ok st1 =>
        have hreq := compileStep_jumpdest_reqSet st st1 l hstep
        cases rest with
        | nil => simp at hn
        | cons n2 rest2 =>
          simp only [List.get?] at hn
          cases hn
          obtain ⟨e, he⟩ := compileStep_reqSet_blocks st1 n hreq hsd hed
          refine ⟨e, ?_⟩
          simp [bind, Except.bind, List.foldlM, he]
    | succ j =>
      simp only [List.get?] at hi hn
      simp only [runNodes, List.foldlM]
      cases hstep : compileStep st c with
      | error e => exact ⟨e, by simp [bind, Except.bind]⟩
      | ok st1 =>
        obtain ⟨e, he⟩ := ih st1 j l n hi hn hsd hed
        refine ⟨e, ?_⟩
        simp only [runNodes] at he
        simp [bind, Except.bind, he]

/-- C7 amended: compile fails whenever some JUMPDEST in the flattened
sequence is immediately followed by a node that is neither SetDepth nor
ExpectDepth.  (A trailing JUMPDEST, or one followed by ExpectDepth, is not
rejected; see the counterexample.) -/
theorem c7_jumpdest_requires_setdepth (code : List Node) (i : Nat)
    (l : String) (n : Node)
    (hi : code.get? i = some (.jumpdest l)) (hn : code.get? (i + 1) = some n)
    (hsd : ∀ d, n ≠ Node.setDepth d) (hed : ∀ d, n ≠ Node.expectDepth d) :
    ∃ e, Compile code = .error e := by
  obtain ⟨e, he⟩ := runNodes_jumpdest_violation code initState i l n hi hn hsd hed
  exact ⟨e, compile_error_of_runNodes code e he⟩

/-- Witness for C7 amended: a JUMPDEST directly followed by STOP fails to
compile. -/
theorem c7_jumpdest_requires_setdepth_witness :
    ([Node.jumpdest "a", Node.op 0x00].get? 0 = some (.jumpdest "a") ∧
     [Node.jumpdest "a", Node.op 0x00].get? 1 = some (.op 0x00)) ∧
    ∃ e, Compile [Node.jumpdest "a", Node.op 0x00] = .error e :=
  ⟨⟨rfl, rfl⟩,
    c7_jumpdest_requires_setdepth [Node.jumpdest "a", Node.op 0x00] 0 "a"
      (.op 0x00) rfl rfl (fun d h => by cases h) (fun d h => by cases h)⟩

/-- Witness for C10 at the initial state with concrete labels, including the
empty label list and a two-label size push. -/
theorem c10_push_nodes_increment_depth_by_one_witness :
    initState.reqSet = false ∧
    ((compileStep initState (.pushTag "x")).map CompState.depth
        = .ok (initState.depth + 1) ∧
     (compileStep initState (.pushTags [])).map CompState.depth
        = .ok (initState.depth + 1) ∧
     (compileStep initState (.pushSize "a" "b")).map CompState.depth
        = .ok (initState.depth + 1)) :=
  ⟨rfl, c10_push_nodes_increment_depth_by_one initState "x" "a" "b" [] rfl⟩

/-- getD of a set list: changed at the written in-range index, unchanged
elsewhere. -/
lemma getD_set_default (all : List Splice) (i j : Nat) (b : Splice) :
    (all.set i b).getD j default =
      if i = j ∧ i < all.length then b else all.getD j default := by
  rw [List.getD_eq_getElem?_getD, List.getD_eq_getElem?_getD, List.getElem?_set]
  rcases eq_or_ne i j with h | h
  · subst h
    by_cases hl : i < all.length
    · simp [hl]
    · simp [hl, List.getElem?_eq_none (Nat.le_of_not_lt hl)]
  · simp [h]

/-- Out-of-range getD yields the default splice. -/
lemma getD_out_of_range (all : List Splice) (i : Nat) (hl : ¬ i < all.length) :
    all.getD i default = default := by
  rw [List.getD_eq_getElem?_getD, List.getElem?_eq_none (Nat.le_of_not_lt hl)]
  rfl

/-- expandStep leaves the state untouched at an out-of-range index, since the
default splice carries the nil op. -/
lemma expandStep_out_of_range (all : List Splice) (ex i : Nat)
    (hl : ¬ i < all.length) : expandStep (all, ex) i = (all, ex) := by
  have hd := getD_out_of_range all i hl
  simp only [expandStep, hd]

/-- Setting an index to a splice with at least the reserved bytes of the old
entry keeps every getD-read reserved count at least as large. -/
lemma getD_set_reserved_mono (all : List Splice) (i j : Nat) (b : Splice)
    (hb : (all.getD i default).reserved ≤ b.reserved) :
    (all.getD j default).reserved ≤ ((all.set i b).getD j default).reserved := by
  rw [getD_set_default]
  split
  case isTrue h => rw [← h.1]; exact hb
  case isFalse h => exact Nat.le_refl _

/-- One expandStep never decreases any reserved count. -/
lemma expandStep_reserved_mono (all : List Splice) (ex i j : Nat) :
    (all.getD j default).reserved ≤
      ((expandStep (all, ex) i).1.getD j default).reserved := by
  simp only [expandStep]
  split
  · exact getD_set_reserved_mono all i j _ (Nat.le_refl _)
  · exact getD_set_reserved_mono all i j _ (Nat.le_refl _)
  · exact Nat.le_refl _
  · split
    case isTrue hlt =>
      exact getD_set_reserved_mono all i j _ (Nat.le_of_lt hlt)
    case isFalse hlt => exact Nat.le_refl _

/-- A whole expand pass never decreases any reserved count; stated for folds
over arbitrary index lists. -/
lemma foldl_expandStep_reserved_mono (idxs : List Nat) :
    ∀ (all : List Splice) (ex j : Nat),
      (all.getD j default).reserved ≤
        ((idxs.foldl expandStep (all, ex)).1.getD j default).reserved := by
  induction idxs with
  | nil => intro all ex j; exact Nat.le_refl _
  | cons i rest ih =>
    intro all ex j
    have h1 := expandStep_reserved_mono all ex i j
    have h2 := ih (expandStep (all, ex) i).1 (expandStep (all, ex) i).2 j
    rw [Prod.mk.eta] at h2
    simp only [List.foldl]
    exact Nat.le_trans h1 h2

/-- Sum of a Nat list after a set at an in-range index. -/
lemma natSum_set (l : List Nat) :
    ∀ (i x : Nat), i < l.length →
      (l.set i x).sum + l.getD i 0 = l.sum + x := by
  induction l with
  | nil => intro i x h; simp at h
  | cons a rest ih =>
    intro i x h
    cases i with
    | zero => simp [List.set, List.getD, List.sum_cons]; omega
    | succ j =>
      simp only [List.set, List.sum_cons, List.getD_cons_succ]
      have := ih j x (by simpa using Nat.lt_of_succ_lt_succ h)
      omega

/-- sumReserved after a set at an in-range index. -/
lemma sumReserved_set (all : List Splice) (i : Nat) (b : Splice)
    (h : i < all.length) :
    sumReserved (all.set i b) + (all.getD i default).reserved =
      sumReserved all + b.reserved := by
  have hmap : (all.set i b).map (fun s => s.reserved)
      = (all.map (fun s => s.reserved)).set i b.reserved := List.map_set
  have hd : (all.map (fun s => s.reserved)).getD i 0
      = (all.getD i default).reserved := by
    rw [List.getD_eq_getElem?_getD, List.getD_eq_getElem?_getD,
        List.getElem?_map]
    cases hx : all[i]? with
    | none => rfl
    | some v => rfl
  have := natSum_set (all.map (fun s => s.reserved)) i b.reserved
    (by simpa using h)
  rw [hd] at this
  simpa [sumReserved, hmap] using this

/-- One expandStep adds exactly its growth to the total reservation. -/
lemma expandStep_sum (all : List Splice) (ex i : Nat) :
    sumReserved (expandStep (all, ex) i).1 + ex =
      sumReserved all + (expandStep (all, ex) i).2 := by
  by_cases hl : i < all.length
  · simp only [expandStep]
    split
    · dsimp only
      have := sumReserved_set all i
        { buf := (all.getD i default).buf, op := (all.getD i default).op,
          offset := some ((all.getD i default).offset.getD 0 + ex),
          tags := (all.getD i default).tags,
          reserved := (all.getD i default).reserved } hl
      dsimp only at this
      omega
    · dsimp only
      have := sumReserved_set all i
        { buf := (all.getD i default).buf, op := (all.getD i default).op,
          offset := some ((all.getD i default).offset.getD 0 + ex),
          tags := (all.getD i default).tags,
          reserved := (all.getD i default).reserved } hl
      dsimp only at this
      omega
    · rfl
    · split
      · dsimp only
        have := sumReserved_set all i
          { buf := (all.getD i default).buf, op := (all.getD i default).op,
            offset := (all.getD i default).offset,
            tags := (all.getD i default).tags,
            reserved := extraBytesNeeded all (all.getD i default) } hl
        dsimp only at this
        rename_i hlt
        omega
      · rfl
  · rw [expandStep_out_of_range all ex i hl]

/-- A whole expand pass adds exactly its growth counter to the total
reservation. -/
lemma foldl_expandStep_sum (idxs : List Nat) :
    ∀ (all : List Splice) (ex : Nat),
      sumReserved (idxs.foldl expandStep (all, ex)).1 + ex =
        sumReserved all + (idxs.foldl expandStep (all, ex)).2 := by
  induction idxs with
  | nil => intro all ex; rfl
  | cons i rest ih =>
    intro all ex
    simp only [List.foldl]
    have h1 := expandStep_sum all ex i
    have h2 := ih (expandStep (all, ex) i).1 (expandStep (all, ex) i).2
    rw [Prod.mk.eta] at h2
    omega

/-- bytesPerTag is 1 or 2. -/
lemma bytesPerTag_le_two (all : List Splice) (s : Splice) :
    bytesPerTag all s ≤ 2 := by
  unfold bytesPerTag
  split <;> omega

/-- bytesForSize is 1 or 2. -/
lemma bytesForSize_le_two (all : List Splice) (s : Splice) :
    bytesForSize all s ≤ 2 := by
  unfold bytesForSize
  split
  · split <;> omega
  · omega

/-- The recomputed need of a splice never exceeds its per-splice bound: one
PUSH byte plus at most two bytes per referenced tag. -/
lemma extraBytesNeeded_le_reservedBound (all : List Splice) (s : Splice) :
    extraBytesNeeded all s ≤ reservedBound s := by
  unfold extraBytesNeeded reservedBound
  have h1 := bytesPerTag_le_two all s
  have h2 := bytesForSize_le_two all s
  split
  · omega
  · omega
  · omega
  · have : s.tags.length * bytesPerTag all s ≤ s.tags.length * 2 :=
      Nat.mul_le_mul_left _ h1
    omega

/-- reservedBound only reads the op and tags fields. -/
lemma reservedBound_congr (a b : Splice) (hop : a.op = b.op)
    (htags : a.tags = b.tags) : reservedBound a = reservedBound b := by
  unfold reservedBound
  rw [hop, htags]

/-- Setting an index back to the value it already holds is a no-op. -/
lemma list_set_getD_self {α : Type} (l : List α) (d : α) :
    ∀ i, l.set i (l.getD i d) = l := by
  induction l with
  | nil => intro i; rfl
  | cons a rest ih =>
    intro i
    cases i with
    | zero => simp
    | succ j =>
      rw [List.getD_cons_succ]
      show a :: rest.set j (rest.getD j d) = a :: rest
      rw [ih j]

/-- getD through a map. -/
lemma getD_map_reservedBound (l : List Splice) (i : Nat) :
    (l.map reservedBound).getD i 0 = reservedBound (l.getD i default) := by
  rw [List.getD_eq_getElem?_getD, List.getD_eq_getElem?_getD, List.getElem?_map]
  cases hx : l[i]? with
  | none => rfl
  | some v => rfl

/-- One expandStep keeps every per-splice bound unchanged: the written splice
always has the op and tags of the entry it replaces. -/
lemma expandStep_bound_map (all : List Splice) (ex i : Nat) :
    (expandStep (all, ex) i).1.map reservedBound = all.map reservedBound := by
  simp only [expandStep]
  split
  · rw [List.map_set]
    have hb : reservedBound
        { buf := (all.getD i default).buf, op := (all.getD i default).op,
          offset := some ((all.getD i default).offset.getD 0 + ex),
          tags := (all.getD i default).tags,
          reserved := (all.getD i default).reserved }
        = reservedBound (all.getD i default) := reservedBound_congr _ _ rfl rfl
    rw [hb, ← getD_map_reservedBound, list_set_getD_self]
  · rw [List.map_set]
    have hb : reservedBound
        { buf := (all.getD i default).buf, op := (all.getD i default).op,
          offset := some ((all.getD i default).offset.getD 0 + ex),
          tags := (all.getD i default).tags,
          reserved := (all.getD i default).reserved }
        = reservedBound (all.getD i default) := reservedBound_congr _ _ rfl rfl
    rw [hb, ← getD_map_reservedBound, list_set_getD_self]
  · rfl
  · split
    · rw [List.map_set]
      have hb : reservedBound
          { buf := (all.getD i default).buf, op := (all.getD i default).op,
            offset := (all.getD i default).offset,
            tags := (all.getD i default).tags,
            reserved := extraBytesNeeded all (all.getD i default) }
          = reservedBound (all.getD i default) := reservedBound_congr _ _ rfl rfl
      rw [hb, ← getD_map_reservedBound, list_set_getD_self]
    · rfl

/-- A whole expand pass keeps the per-splice bounds unchanged. -/
lemma foldl_expandStep_bound_map (idxs : List Nat) :
    ∀ (all : List Splice) (ex : Nat),
      (idxs.foldl expandStep (all, ex)).1.map reservedBound
        = all.map reservedBound := by
  induction idxs with
  | nil => intro all ex; rfl
  | cons i rest ih =>
    intro all ex
    simp only [List.foldl]
    have h2 := ih (expandStep (all, ex) i).1 (expandStep (all, ex) i).2
    rw [Prod.mk.eta] at h2
    rw [h2, expandStep_bound_map]

/-- One expandStep keeps every splice within its reservation bound. -/
lemma expandStep_inv (all : List Splice) (ex i : Nat)
    (h : ∀ sp ∈ all, sp.reserved ≤ reservedBound sp) :
    ∀ sp ∈ (expandStep (all, ex) i).1, sp.reserved ≤ reservedBound sp := by
  have hself : (all.getD i default).reserved
      ≤ reservedBound (all.getD i default) := by
    by_cases hl : i < all.length
    · have : all.getD i default = all[i] := by
        rw [List.getD_eq_getElem?_getD, List.getElem?_eq_getElem hl]
        rfl
      rw [this]
      exact h _ (List.getElem_mem hl)
    · rw [getD_out_of_range all i hl]
      exact Nat.le_refl 0
  simp only [expandStep]
  split
  · intro sp hsp
    rcases List.mem_or_eq_of_mem_set hsp with hm | he
    · exact h sp hm
    · subst he
      exact hself
  · intro sp hsp
    rcases List.mem_or_eq_of_mem_set hsp with hm | he
    · exact h sp hm
    · subst he
      exact hself
  · exact h
  · split
    · intro sp hsp
      rcases List.mem_or_eq_of_mem_set hsp with hm | he
      · exact h sp hm
      · subst he
        have := extraBytesNeeded_le_reservedBound all (all.getD i default)
        have hb : reservedBound
            { buf := (all.getD i default).buf, op := (all.getD i default).op,
              offset := (all.getD i default).offset,
              tags := (all.getD i default).tags,
              reserved := extraBytesNeeded all (all.getD i default) }
            = reservedBound (all.getD i default) :=
          reservedBound_congr _ _ rfl rfl
        rw [hb]
        exact this
    · exact h

/-- A whole expand pass keeps every splice within its reservation bound. -/
lemma foldl_expandStep_inv (idxs : List Nat) :
    ∀ (all : List Splice) (ex : Nat),
      (∀ sp ∈ all, sp.reserved ≤ reservedBound sp) →
      ∀ sp ∈ (idxs.foldl expandStep (all, ex)).1,
        sp.reserved ≤ reservedBound sp := by
  induction idxs with
  | nil => intro all ex h; exact h
  | cons i rest ih =>
    intro all ex h
    simp only [List.foldl]
    have h2 := ih (expandStep (all, ex) i).1 (expandStep (all, ex) i).2
      (expandStep_inv all ex i h)
    rw [Prod.mk.eta] at h2
    exact h2

/-- Splices within their bounds have a bounded total reservation. -/
lemma sumReserved_le_bound_sum (all : List Splice)
    (h : ∀ sp ∈ all, sp.reserved ≤ reservedBound sp) :
    sumReserved all ≤ (all.map reservedBound).sum :=
  List.sum_le_sum h

/-- The expand loop reaches a zero-growth pass before running out of fuel,
whenever every reservation sits within its per-splice bound and the fuel
exceeds the remaining slack. -/
lemma expandLoop_isSome (fuel : Nat) :
    ∀ (sps : List Splice),
      (∀ sp ∈ sps, sp.reserved ≤ reservedBound sp) →
      (sps.map reservedBound).sum < fuel + sumReserved sps →
      (expandLoop fuel sps).isSome := by
  induction fuel with
  | zero =>
    intro sps hInv hF
    have := sumReserved_le_bound_sum sps hInv
    omega
  | succ f ih =>
    intro sps hInv hF
    simp only [expandLoop]
    rcases hp : expandPass sps with ⟨sps1, ex⟩
    by_cases hex : ex = 0
    · simp [hex]
    · simp only [hex, if_false]
      have hsum : sumReserved sps1 + 0 = sumReserved sps + ex := by
        have := foldl_expandStep_sum (List.range sps.length) sps 0
        rw [show List.foldl expandStep (sps, 0) (List.range sps.length)
              = expandPass sps from rfl, hp] at this
        exact this
      have hbound : sps1.map reservedBound = sps.map reservedBound := by
        have := foldl_expandStep_bound_map (List.range sps.length) sps 0
        rw [show List.foldl expandStep (sps, 0) (List.range sps.length)
              = expandPass sps from rfl, hp] at this
        exact this
      have hInv1 : ∀ sp ∈ sps1, sp.reserved ≤ reservedBound sp := by
        have := foldl_expandStep_inv (List.range sps.length) sps 0 hInv
        rw [show List.foldl expandStep (sps, 0) (List.range sps.length)
              = expandPass sps from rfl, hp] at this
        exact this
      exact ih sps1 hInv1 (by rw [hbound]; omega)

/-- resolveTags resolves exactly one splice index per name. -/
lemma resolveTags_length (tags : List (String × Nat)) :
    ∀ (ls : List String) (ts : List Nat),
      resolveTags tags ls = .ok ts → ts.length = ls.length := by
  intro ls
  induction ls with
  | nil => intro ts h; cases h; rfl
  | cons l rest ih =>
    intro ts h
    simp only [resolveTags] at h
    cases hl : lookupTag tags l with
    | none => rw [hl] at h; simp [bind, Except.bind] at h
    | some idx =>
      rw [hl] at h
      cases hr : resolveTags tags rest with
      | error e => rw [hr] at h; simp [bind, Except.bind] at h
      | ok ts1 =>
        rw [hr] at h
        simp [bind, Except.bind, pure, Except.pure] at h
        subst h
        simp [ih ts1 hr]

/-- The default splice satisfies the reserve invariant, and so does any
getD read from an invariant list. -/
lemma getD_spliceInv (all : List Splice) (i : Nat)
    (h : ∀ sp ∈ all, spliceInv sp) : spliceInv (all.getD i default) := by
  by_cases hl : i < all.length
  · have : all.getD i default = all[i] := by
      rw [List.getD_eq_getElem?_getD, List.getElem?_eq_getElem hl]
      rfl
    rw [this]
    exact h _ (List.getElem_mem hl)
  · rw [getD_out_of_range all i hl]
    exact Or.inl ⟨rfl, rfl⟩

/-- What one reserveStep writes: the splice at index i becomes an updated sp1
agreeing with the old entry on op and reserved count, with tags either
untouched (only for ops that reference no names) or resolved one-per-name,
and then receives the freshly computed reservation. -/
lemma reserveStep_shape (tags : List (String × Nat)) (total i : Nat)
    (pc0 : Nat) (all : List Splice) (out : Nat × List Splice)
    (hstep : reserveStep tags total (pc0, all) i = .ok out) :
    ∃ sp1 : Splice,
      sp1.op = (all.getD i default).op ∧
      sp1.reserved = (all.getD i default).reserved ∧
      ((sp1.tags = (all.getD i default).tags ∧
          spliceTagNames (all.getD i default).op = []) ∨
        sp1.tags.length = (spliceTagNames (all.getD i default).op).length) ∧
      out.2 = (all.set i sp1).set i
        { sp1 with reserved := extraBytesNeeded (all.set i sp1) sp1 } := by
  cases hop : (all.getD i default).op with
  | nilOp =>
    by_cases hi : i + 1 = total
    · simp only [reserveStep, hop, hi, if_true, bind, Except.bind, pure,
        Except.pure] at hstep
      cases hstep
      exact ⟨all.getD i default, hop, rfl, Or.inl ⟨rfl, rfl⟩, by rw [hop]⟩
    · simp only [reserveStep, hop, hi, if_false, bind, Except.bind] at hstep
      simp at hstep
  | jumpdest l =>
    simp only [reserveStep, hop, bind, Except.bind, pure, Except.pure] at hstep
    cases hstep
    refine ⟨{ buf := (all.getD i default).buf,
              op := (all.getD i default).op,
              offset := some (pc0 + (all.getD i default).buf.length),
              tags := (all.getD i default).tags,
              reserved := (all.getD i default).reserved },
      hop, rfl, Or.inl ⟨rfl, rfl⟩, by rw [hop]⟩
  | label l =>
    simp only [reserveStep, hop, bind, Except.bind, pure, Except.pure] at hstep
    cases hstep
    refine ⟨{ buf := (all.getD i default).buf,
              op := (all.getD i default).op,
              offset := some (pc0 + (all.getD i default).buf.length),
              tags := (all.getD i default).tags,
              reserved := (all.getD i default).reserved },
      hop, rfl, Or.inl ⟨rfl, rfl⟩, by rw [hop]⟩
  | pushTag l =>
    simp only [reserveStep, hop, bind, Except.bind, pure, Except.pure] at hstep
    cases hres : resolveTags tags (spliceTagNames (SpliceOp.pushTag l)) with
    | error e => rw [hres] at hstep; simp at hstep
    | ok ts =>
      rw [hres] at hstep
      simp only at hstep
      cases hstep
      refine ⟨{ buf := (all.getD i default).buf,
                op := (all.getD i default).op,
                offset := (all.getD i default).offset,
                tags := ts,
                reserved := (all.getD i default).reserved }, hop, rfl,
        Or.inr ?_, by rw [hop]⟩
      exact resolveTags_length tags _ ts hres
  | pushTags ls =>
    simp only [reserveStep, hop, bind, Except.bind, pure, Except.pure] at hstep
    cases hres : resolveTags tags (spliceTagNames (SpliceOp.pushTags ls)) with
    | error e => rw [hres] at hstep; simp at hstep
    | ok ts =>
      rw [hres] at hstep
      simp only at hstep
      cases hstep
      refine ⟨{ buf := (all.getD i default).buf,
                op := (all.getD i default).op,
                offset := (all.getD i default).offset,
                tags := ts,
                reserved := (all.getD i default).reserved }, hop, rfl,
        Or.inr ?_, by rw [hop]⟩
      exact resolveTags_length tags _ ts hres
  | pushSize a b =>
    simp only [reserveStep, hop, bind, Except.bind, pure, Except.pure] at hstep
    cases hres : resolveTags tags (spliceTagNames (SpliceOp.pushSize a b)) with
    | error e => rw [hres] at hstep; simp at hstep
    | ok ts =>
      rw [hres] at hstep
      simp only at hstep
      cases hstep
      refine ⟨{ buf := (all.getD i default).buf,
                op := (all.getD i default).op,
                offset := (all.getD i default).offset,
                tags := ts,
                reserved := (all.getD i default).reserved }, hop, rfl,
        Or.inr ?_, by rw [hop]⟩
      exact resolveTags_length tags _ ts hres

/-- reservedBound depends only on the op and the number of tags. -/
lemma reservedBound_eq_of (a b : Splice) (hop : a.op = b.op)
    (hlen : a.tags.length = b.tags.length) :
    reservedBound a = reservedBound b := by
  unfold reservedBound
  rw [hop, hlen]

/-- The updated splice written by reserveStep satisfies the invariant
whenever the entry it replaces does. -/
lemma spliceInv_of_shape (sp sp1 : Splice)
    (hop : sp1.op = sp.op) (hres : sp1.reserved = sp.reserved)
    (htags : (sp1.tags = sp.tags ∧ spliceTagNames sp.op = []) ∨
      sp1.tags.length = (spliceTagNames sp.op).length)
    (h : spliceInv sp) : spliceInv sp1 := by
  rcases h with ⟨hr, ht⟩ | ⟨hr, ht⟩
  · rcases htags with ⟨ht1, hn⟩ | hlen
    · exact Or.inl ⟨by rw [hres, hr], by rw [ht1, ht]⟩
    · exact Or.inr ⟨by rw [hres, hr]; exact Nat.zero_le _,
        by rw [hop]; exact hlen⟩
  · have hlen1 : sp1.tags.length = (spliceTagNames sp.op).length := by
      rcases htags with ⟨ht1, hn⟩ | hlen
      · rw [ht1]; exact ht
      · exact hlen
    have hb : reservedBound sp1 = reservedBound sp :=
      reservedBound_eq_of sp1 sp hop (by rw [hlen1, ht])
    exact Or.inr ⟨by rw [hres, hb]; exact hr, by rw [hop]; exact hlen1⟩

/-- Assigning the freshly computed reservation keeps the invariant. -/
lemma spliceInv_assign (sp1 : Splice) (all1 : List Splice)
    (hlen : sp1.tags.length = (spliceTagNames sp1.op).length) :
    spliceInv { sp1 with reserved := extraBytesNeeded all1 sp1 } := by
  refine Or.inr ⟨?_, hlen⟩
  have h1 := extraBytesNeeded_le_reservedBound all1 sp1
  have hb : reservedBound { sp1 with reserved := extraBytesNeeded all1 sp1 }
      = reservedBound sp1 := reservedBound_congr _ _ rfl rfl
  rw [hb]
  exact h1

/-- One reserveStep preserves the invariant. -/
lemma reserveStep_inv (tags : List (String × Nat)) (total i : Nat)
    (acc out : Nat × List Splice)
    (hstep : reserveStep tags total acc i = .ok out)
    (h : ∀ sp ∈ acc.2, spliceInv sp) : ∀ sp ∈ out.2, spliceInv sp := by
  obtain ⟨pc0, all⟩ := acc
  obtain ⟨sp1, hop, hres, htags, hout⟩ :=
    reserveStep_shape tags total i pc0 all out hstep
  have hQ : spliceInv (all.getD i default) := getD_spliceInv all i h
  have h1 : spliceInv sp1 :=
    spliceInv_of_shape (all.getD i default) sp1 hop hres htags hQ
  have hlen1 : sp1.tags.length = (spliceTagNames sp1.op).length := by
    rcases htags with ⟨ht1, hn⟩ | hlen
    · rcases hQ with ⟨_, ht⟩ | ⟨_, ht⟩
      · rw [ht1, ht, hop, hn]; rfl
      · rw [ht1, ht, hop]
    · rw [hop]; exact hlen
  have h2 : spliceInv { sp1 with
      reserved := extraBytesNeeded (all.set i sp1) sp1 } :=
    spliceInv_assign sp1 (all.set i sp1) hlen1
  intro sp hsp
  rw [hout] at hsp
  rcases List.mem_or_eq_of_mem_set hsp with hm | he
  · rcases List.mem_or_eq_of_mem_set hm with hm2 | he2
    · exact h sp hm2
    · subst he2; exact h1
  · subst he; exact h2

/-- The whole reserve fold preserves the invariant. -/
lemma foldlM_reserveStep_inv (tags : List (String × Nat)) (total : Nat)
    (idxs : List Nat) :
    ∀ (acc out : Nat × List Splice),
      List.foldlM (reserveStep tags total) acc idxs = .ok out →
      (∀ sp ∈ acc.2, spliceInv sp) → ∀ sp ∈ out.2, spliceInv sp := by
  induction idxs with
  | nil =>
    intro acc out hfold h
    cases hfold
    exact h
  | cons i rest ih =>
    intro acc out hfold h
    simp only [List.foldlM] at hfold
    cases hstep : reserveStep tags total acc i with
    | error e => rw [hstep] at hfold; simp [bind, Except.bind] at hfold
    | ok mid =>
      rw [hstep] at hfold
      simp only [bind, Except.bind] at hfold
      exact ih mid out hfold (reserveStep_inv tags total i acc mid hstep h)

/-- The reserve pass leaves every splice within its per-splice bound,
starting from driver-shaped splices. -/
lemma reserve_within_bound (tags : List (String × Nat))
    (sps0 sps : List Splice)
    (h0 : ∀ sp ∈ sps0, sp.reserved = 0 ∧ sp.tags = [])
    (hres : reserve tags sps0 = .ok sps) :
    ∀ sp ∈ sps, sp.reserved ≤ reservedBound sp := by
  simp only [reserve, bind, Except.bind] at hres
  cases hfold : List.foldlM (reserveStep tags sps0.length) (0, sps0)
      (List.range sps0.length) with
  | error e => rw [hfold] at hres; simp at hres
  | ok out =>
    rw [hfold] at hres
    simp only [pure, Except.pure] at hres
    cases hres
    have hinv := foldlM_reserveStep_inv tags sps0.length
      (List.range sps0.length) (0, sps0) out hfold
      (fun sp hsp => Or.inl (h0 sp hsp))
    intro sp hsp
    rcases hinv sp hsp with ⟨hr, _⟩ | ⟨hr, _⟩
    · rw [hr]; exact Nat.zero_le _
    · exact hr

/-- C9: the expansion fixpoint terminates.  Reservations are monotone
non-decreasing across every pass, a pass adds exactly its growth counter to
the total reservation (so non-zero growth strictly increases it), and for
the splices produced by the reserve pass of any driver run the loop reaches
a zero-growth pass within the expandFuel bound, so no oscillation is
possible. -/
theorem c9_expansion_fixpoint_terminates (tags : List (String × Nat))
    (sps0 sps : List Splice)
    (h0 : ∀ sp ∈ sps0, sp.reserved = 0 ∧ sp.tags = [])
    (hres : reserve tags sps0 = .ok sps) :
    (∀ (xs : List Splice) (j : Nat),
        (xs.getD j default).reserved ≤
          ((expandPass xs).1.getD j default).reserved) ∧
    (∀ xs : List Splice,
        sumReserved (expandPass xs).1 = sumReserved xs + (expandPass xs).2) ∧
    (expandLoop (expandFuel sps) sps).isSome := by
  refine ⟨?_, ?_, ?_⟩
  · intro xs j
    exact foldl_expandStep_reserved_mono (List.range xs.length) xs 0 j
  · intro xs
    have := foldl_expandStep_sum (List.range xs.length) xs 0
    simpa [expandPass] using this
  · have hInv := reserve_within_bound tags sps0 sps h0 hres
    apply expandLoop_isSome (expandFuel sps) sps hInv
    simp only [expandFuel]
    omega

/-- Witness for C9: a one-push one-label program whose driver output is in
canonical shape and whose reserve pass succeeds; its expansion reaches the
fixpoint within the fuel bound. -/
theorem c9_expansion_fixpoint_terminates_witness :
    ((∀ sp ∈ [{ buf := [], op := SpliceOp.pushTag "L" },
              { buf := [0x00], op := SpliceOp.jumpdest "L" },
              ({} : Splice)], sp.reserved = 0 ∧ sp.tags = []) ∧
     reserve [("L", 1)]
        [{ buf := [], op := SpliceOp.pushTag "L" },
         { buf := [0x00], op := SpliceOp.jumpdest "L" },
         {}] =
        .ok [{ buf := [], op := .pushTag "L", tags := [1], reserved := 2 },
             { buf := [0x00], op := .jumpdest "L", offset := some 3,
               reserved := 1 },
             {}]) ∧
    (expandLoop
      (expandFuel
        [{ buf := [], op := .pushTag "L", tags := [1], reserved := 2 },
         { buf := [0x00], op := .jumpdest "L", offset := some 3,
           reserved := 1 },
         {}])
      [{ buf := [], op := .pushTag "L", tags := [1], reserved := 2 },
       { buf := [0x00], op := .jumpdest "L", offset := some 3,
         reserved := 1 },
       {}]).isSome :=
  ⟨⟨by decide, by decide⟩,
    (c9_expansion_fixpoint_terminates [("L", 1)]
      [{ buf := [], op := SpliceOp.pushTag "L" },
       { buf := [0x00], op := SpliceOp.jumpdest "L" },
       {}]
      [{ buf := [], op := .pushTag "L", tags := [1], reserved := 2 },
       { buf := [0x00], op := .jumpdest "L", offset := some 3, reserved := 1 },
       {}]
      (by decide) (by decide)).2.2⟩

end SpecOps

namespace Stack

/-- Applying one more opcode at the end of a path. -/
lemma applyOps_append (p : List Nat) :
    ∀ (n : List Nat) (o : Nat),
      applyOps n (p ++ [o]) =
        match applyOps n p with
        | .ok m => applyOp m o
        | .error e => .error e := by
  induction p with
  | nil =>
    intro n o
    simp only [List.nil_append, applyOps]
    cases applyOp n o with
    | error e => simp [bind, Except.bind]
    | ok m => simp [bind, Except.bind, applyOps]
  | cons x rest ih =>
    intro n o
    simp only [List.cons_append, applyOps, bind, Except.bind]
    cases applyOp n x with
    | error e => rfl
    | ok m => exact ih m o

/-- A hit in the transformationPaths map is a member of it. -/
lemma lookupPath_mem (g : List (List Nat × List Nat)) (n p : List Nat) :
    lookupPath g n = some p → (n, p) ∈ g := by
  induction g with
  | nil => intro h; cases h
  | cons kv rest ih =>
    intro h
    obtain ⟨k, v⟩ := kv
    simp only [lookupPath] at h
    by_cases hk : k = n
    · rw [if_pos hk] at h
      cases h
      subst hk
      exact List.mem_cons_self _ _
    · rw [if_neg hk] at h
      exact List.mem_cons_of_mem _ (ih h)

/-- Soundness of the inner edge loop: if the graph only holds paths that lead
from the root to their node and the current path leads to the current node,
then a returned path leads to the target and a returned graph again only
holds root-to-node paths. -/
lemma processEdges_sound (root want curr currPath : List Nat)
    (hcurr : applyOps root currPath = .ok curr) :
    ∀ (es : List Nat) (g : List (List Nat × List Nat)) (q : List (List Nat)),
      (∀ pr ∈ g, applyOps root pr.2 = .ok pr.1) →
      (∀ g1 q1, processEdges want currPath curr es g q = .ok (.inl (g1, q1)) →
          ∀ pr ∈ g1, applyOps root pr.2 = .ok pr.1) ∧
      (∀ path, processEdges want currPath curr es g q = .ok (.inr path) →
          applyOps root path = .ok want) := by
  intro es
  induction es with
  | nil =>
    intro g q hg
    refine ⟨?_, ?_⟩
    · intro g1 q1 h
      simp only [processEdges] at h
      cases h
      exact hg
    · intro path h
      simp only [processEdges] at h
      cases h
  | cons o os ih =>
    intro g q hg
    have hbind : ∀ r, processEdges want currPath curr (o :: os) g q = .ok r →
        ∃ next, applyOp curr o = .ok next ∧
          ((∃ pp, lookupPath g next = some pp ∧
              processEdges want currPath curr os g q = .ok r) ∨
           (lookupPath g next = none ∧ next = want ∧
              r = .inr (currPath ++ [o])) ∨
           (lookupPath g next = none ∧ next ≠ want ∧
              processEdges want currPath curr os
                (g ++ [(next, currPath ++ [o])]) (q ++ [next]) = .ok r)) := by
      intro r h
      simp only [processEdges, bind, Except.bind] at h
      cases hap : applyOp curr o with
      | error e => rw [hap] at h; cases h
      | ok next =>
        rw [hap] at h
        simp only at h
        refine ⟨next, rfl, ?_⟩
        cases hlp : lookupPath g next with
        | some pp =>
          rw [hlp] at h
          exact Or.inl ⟨pp, rfl, h⟩
        | none =>
          rw [hlp] at h
          by_cases hw : next = want
          · rw [if_pos hw] at h
            cases h
            exact Or.inr (Or.inl ⟨rfl, hw, rfl⟩)
          · rw [if_neg hw] at h
            exact Or.inr (Or.inr ⟨rfl, hw, h⟩)
    refine ⟨?_, ?_⟩
    · intro g1 q1 h
      obtain ⟨next, hap, hcases⟩ := hbind _ h
      rcases hcases with ⟨pp, _, hrec⟩ | ⟨_, _, habs⟩ | ⟨_, hw, hrec⟩
      · exact (ih g q hg).1 g1 q1 hrec
      · cases habs
      · have hg1 : ∀ pr ∈ g ++ [(next, currPath ++ [o])],
            applyOps root pr.2 = .ok pr.1 := by
          intro pr hpr
          rcases List.mem_append.mp hpr with hm | hm
          · exact hg pr hm
          · rcases List.mem_singleton.mp hm with rfl
            simp only
            rw [applyOps_append, hcurr]
            exact hap
        exact (ih _ _ hg1).1 g1 q1 hrec
    · intro path h
      obtain ⟨next, hap, hcases⟩ := hbind _ h
      rcases hcases with ⟨pp, _, hrec⟩ | ⟨_, hw, heq⟩ | ⟨_, hw, hrec⟩
      · exact (ih g q hg).2 path hrec
      · cases heq
        rw [applyOps_append, hcurr, ← hw]
        exact hap
      · have hg1 : ∀ pr ∈ g ++ [(next, currPath ++ [o])],
            applyOps root pr.2 = .ok pr.1 := by
          intro pr hpr
          rcases List.mem_append.mp hpr with hm | hm
          · exact hg pr hm
          · rcases List.mem_singleton.mp hm with rfl
            simp only
            rw [applyOps_append, hcurr]
            exact hap
        exact (ih _ _ hg1).2 path hrec

/-- Soundness of the BFS queue loop: any returned path transforms the root
into the target. -/
lemma bfsLoop_sound (root want : List Nat) :
    ∀ (fuel : Nat) (g : List (List Nat × List Nat)) (q : List (List Nat))
      (path : List Nat),
      (∀ pr ∈ g, applyOps root pr.2 = .ok pr.1) →
      bfsLoop want fuel g q = .ok path →
      applyOps root path = .ok want := by
  intro fuel
  induction fuel with
  | zero => intro g q path _ h; cases h
  | succ f ih =>
    intro g q path hg h
    cases q with
    | nil => cases h
    | cons curr qs =>
      simp only [bfsLoop, bind, Except.bind] at h
      cases hlp : lookupPath g curr with
      | none => rw [hlp] at h; cases h
      | some currPath =>
        rw [hlp] at h
        simp only at h
        have hcurr : applyOps root currPath = .ok curr :=
          hg _ (lookupPath_mem g curr currPath hlp)
        cases hpe : processEdges want currPath curr (edgesOf want curr) g qs with
        | error e => rw [hpe] at h; cases h
        | ok res =>
          rw [hpe] at h
          cases res with
          | inr p =>
            simp only at h
            cases h
            exact (processEdges_sound root want curr currPath hcurr
              (edgesOf want curr) g qs hg).2 _ hpe
          | inl gq =>
            obtain ⟨g1, q1⟩ := gq
            simp only at h
            exact ih g1 q1 path
              ((processEdges_sound root want curr currPath hcurr
                (edgesOf want curr) g qs hg).1 g1 q1 hpe) h

/-- Soundness of Transformation.bfs: a returned opcode sequence transforms
the root into the requested node. -/
lemma bfs_sound (indices : List Nat) (size : Nat) (ops : List Nat)
    (h : bfs indices size = .ok ops) :
    applyOps (rootNode size) ops = .ok indices := by
  simp only [bfs] at h
  by_cases hsz : size = 0 ∨ 16 < size
  · rw [if_pos hsz] at h; cases h
  · rw [if_neg hsz] at h
    by_cases hroot : indices = rootNode size
    · rw [if_pos hroot] at h
      cases h
      rw [hroot]
      rfl
    · rw [if_neg hroot] at h
      exact bfsLoop_sound (rootNode size) indices bfsFuel
        [(rootNode size, [])] [rootNode size] ops
        (by
          intro pr hpr
          rcases List.mem_singleton.mp hpr with rfl
          rfl)
        h

/-- A successful permutationSize returns the index count. -/
lemma permutationSize_eq (t : Transformation) (s : Nat)
    (h : permutationSize t = .ok s) : s = t.indices.length := by
  simp only [permutationSize] at h
  by_cases h1 : 16 < t.indices.length
  · rw [if_pos h1] at h; cases h
  · rw [if_neg h1] at h
    by_cases h2 : t.indices.Nodup
    · rw [if_pos h2] at h
      by_cases h3 : (List.range t.indices.length).all
          (fun i => t.indices.contains i)
      · rw [if_pos h3] at h; cases h; rfl
      · rw [if_neg h3] at h; cases h
    · rw [if_neg h2] at h; cases h

/-- A successful generalSize returns the declared depth. -/
lemma generalSize_eq (t : Transformation) (s : Nat)
    (h : generalSize t = .ok s) : s = t.depth := by
  simp only [generalSize] at h
  by_cases h1 : 16 < t.depth
  · rw [if_pos h1] at h; cases h
  · rw [if_neg h1] at h
    cases hf : t.indices.find? (fun i => t.depth ≤ i) with
    | some i => rw [hf] at h; cases h
    | none => rw [hf] at h; cases h; rfl

/-- Soundness of the WithOps verification path. -/
lemma overriden_sound (size : Nat) (indices ops0 ops : List Nat)
    (h : overriden size indices ops0 = .ok ops) :
    applyOps (rootNode size) ops = .ok indices := by
  simp only [overriden, bind, Except.bind] at h
  cases hap : applyOps (rootNode size) ops0 with
  | error e => rw [hap] at h; cases h
  | ok fin =>
    rw [hap] at h
    simp only at h
    by_cases hfin : fin = indices
    · rw [if_pos hfin] at h
      cases h
      rw [hap, hfin]
    · rw [if_neg hfin] at h; cases h

/-- C3: reshape soundness.  Whenever Transformation.Bytecode succeeds, either
through the BFS search or through a WithOps override, simulating the
returned SWAP/DUP/POP sequence from the in-order root stack of the effective
depth yields exactly the requested indices. -/
theorem c3_reshape_sound (t : Transformation) (ops : List Nat)
    (h : TBytecode t = .ok ops) :
    applyOps (rootNode (effSize t)) ops = .ok t.indices := by
  cases ht : t.typ with
  | unknownXform =>
    simp only [TBytecode, ht, bind, Except.bind] at h
    cases h
  | permutation =>
    simp only [TBytecode, ht, bind, Except.bind] at h
    cases hs : permutationSize t with
    | error e => rw [hs] at h; cases h
    | ok s =>
      rw [hs] at h
      simp only at h
      have hsize : s = t.indices.length := permutationSize_eq t s hs
      have heff : effSize t = s := by
        simp [effSize, ht, hsize]
      rw [heff]
      by_cases hov : t.override.length ≠ 0
      · rw [if_pos hov] at h
        exact overriden_sound s t.indices t.override ops h
      · rw [if_neg hov] at h
        exact bfs_sound t.indices s ops h
  | general =>
    simp only [TBytecode, ht, bind, Except.bind] at h
    cases hs : generalSize t with
    | error e => rw [hs] at h; cases h
    | ok s =>
      rw [hs] at h
      simp only at h
      have hsize : s = t.depth := generalSize_eq t s hs
      have heff : effSize t = s := by
        simp [effSize, ht, hsize]
      rw [heff]
      by_cases hov : t.override.length ≠ 0
      · rw [if_pos hov] at h
        exact overriden_sound s t.indices t.override ops h
      · rw [if_neg hov] at h
        exact bfs_sound t.indices s ops h

/-- Witness for C3: Permute(1,0) compiles to a single SWAP1 whose simulation
from the root stack 0 1 yields 1 0. -/
theorem c3_reshape_sound_witness :
    TBytecode { typ := .permutation, indices := [1, 0] } = .ok [0x90] ∧
    applyOps
        (rootNode (effSize { typ := .permutation, indices := [1, 0] }))
        [0x90]
      = .ok ([1, 0] : List Nat) :=
  ⟨by decide,
    c3_reshape_sound { typ := .permutation, indices := [1, 0] } [0x90]
      (by decide)⟩

end Stack
